import Mathlib

/-!
Verification development for the psx.go protocol library.

The Go sources (lexicon.go, wiremsg.go, psx.go) are shallowly embedded here.
Go strings are modelled as `List Char` (all protocol data is ASCII, so byte
indexing and char indexing coincide).  Go maps are modelled as association
lists where insertion conses a new binding in front and lookup returns the
first match, which is observationally the same as overwrite-on-insert.
Go panics (out-of-range indexing) are modelled as explicit result variants.
Go `strconv.Atoi` is modelled with its exact semantics: optional sign,
then the `ParseUint` digit scan, which reports overflow the moment the
accumulator leaves the unsigned 64-bit range — before later characters are
examined — followed by `ParseInt`'s signed cutoff; range errors carry the
clamped bound Go returns with them.
-/

/-- Convert a string literal to the `List Char` representation used by the
embedding. -/
def s (x : String) : List Char := x.toList

/-! ## Generic string helpers (Go strings package behaviour) -/

/-- Split a char list at the first occurrence of `sep`, returning the parts
before and after it; `none` when `sep` does not occur.  This models the
combination of `strings.Index` and `strings.SplitN(line, sep, 2)`. -/
def splitFirst (sep : Char) : List Char → Option (List Char × List Char)
  | [] => none
  | c :: rest =>
    if c = sep then some ([], rest)
    else (splitFirst sep rest).map (fun p => (c :: p.1, p.2))

/-- Index of the first occurrence of `c`, as `strings.Index` (with `none`
standing for Go's `-1`). -/
def strIndexOf (c : Char) : List Char → Option Nat
  | [] => none
  | x :: rest =>
    if x = c then some 0
    else (strIndexOf c rest).map (· + 1)

/-- `strings.Split`: split on every occurrence of `sep`; always returns at
least one part. -/
def splitAll (sep : Char) : List Char → List (List Char)
  | [] => [[]]
  | c :: rest =>
    if c = sep then [] :: splitAll sep rest
    else
      match splitAll sep rest with
      | [] => [[c]]
      | p :: ps => (c :: p) :: ps

/-- `strings.Join` with a single-character separator. -/
def joinSep (sep : Char) : List (List Char) → List Char
  | [] => []
  | [x] => x
  | x :: xs => x ++ sep :: joinSep sep xs

/-! ## Decimal integers: Go strconv.Atoi and strconv.Itoa -/

/-- Numeric value of a decimal digit character, `none` for non-digits. -/
def digitVal (c : Char) : Option Nat :=
  if c.isDigit then some (c.toNat - 48) else none

def int64Max : Int := 9223372036854775807
def int64Min : Int := -9223372036854775808
def uint64Max : Nat := 18446744073709551615

/-- `ParseInt`'s cutoff `1 << 63`: the first unsigned value that no longer
fits a non-negative signed 64-bit integer. -/
def intCutoff : Nat := 9223372036854775808

/-- Result of Go `strconv.Atoi`: success, a syntax error (Atoi also returns
0 in that case), or a range error (Atoi returns the clamped bound). -/
inductive AtoiRes where
  | ok (v : Int)
  | syntaxBad
  | rangeBad (clamped : Int)
  deriving DecidableEq

/-- Result of the `ParseUint` digit scan. -/
inductive AtoiUintRes where
  | okU (n : Nat)
  | syntaxU
  | rangeU
  deriving DecidableEq

/-- The digit loop of Go `strconv.ParseUint` (base 10, 64 bit): each
character is classified first (a non-digit stops the scan with a syntax
error), then the accumulator is extended, stopping with a range error the
moment it would exceed the unsigned 64-bit maximum — before any later
character is examined. -/
def parseUintLoop (n : Nat) : List Char → AtoiUintRes
  | [] => .okU n
  | c :: rest =>
    match digitVal c with
    | none => .syntaxU
    | some d =>
      if uint64Max < n * 10 + d then .rangeU
      else parseUintLoop (n * 10 + d) rest

/-- Digits part of `strconv.Atoi` (= `ParseInt` base 10) after the optional
sign was consumed: run the `ParseUint` scan, then apply the signed 64-bit
cutoff; every range outcome carries the clamped bound Go returns alongside
the error. -/
def goAtoiDigits (neg : Bool) (digs : List Char) : AtoiRes :=
  match digs with
  | [] => .syntaxBad
  | _ =>
    match parseUintLoop 0 digs with
    | .syntaxU => .syntaxBad
    | .rangeU => if neg then .rangeBad int64Min else .rangeBad int64Max
    | .okU un =>
      if neg then
        if intCutoff < un then .rangeBad int64Min else .ok (-(un : Int))
      else
        if intCutoff ≤ un then .rangeBad int64Max else .ok (un : Int)

/-- Go `strconv.Atoi`: optional `+`/`-` sign followed by at least one decimal
digit, nothing else; 64-bit signed range enforced. -/
def goAtoi (l : List Char) : AtoiRes :=
  match l with
  | [] => .syntaxBad
  | c :: rest =>
    if c = '+' then goAtoiDigits false rest
    else if c = '-' then goAtoiDigits true rest
    else goAtoiDigits false l

/-- The integer `strconv.Atoi` returns when its error is discarded
(`v, _ := strconv.Atoi(s)`): the value on success, 0 on syntax error, the
clamped bound on range error. -/
def goAtoiValue (l : List Char) : Int :=
  match goAtoi l with
  | .ok v => v
  | .syntaxBad => 0
  | .rangeBad c => c

/-- Little-endian base-10 digits computed with explicit fuel so the
definition is structurally recursive (fuel `n` always suffices). -/
def digitsAuxF : Nat → Nat → List Nat
  | 0, _ => []
  | fuel + 1, n => if n = 0 then [] else n % 10 :: digitsAuxF fuel (n / 10)

/-- Decimal representation of a natural number, as `strconv.Itoa` produces
for non-negative input. -/
def natChars (n : Nat) : List Char :=
  if n = 0 then ['0']
  else ((digitsAuxF n n).map Nat.digitChar).reverse

/-- `strconv.Itoa` for a Go int (possibly negative). -/
def intChars (v : Int) : List Char :=
  if v < 0 then '-' :: natChars (-v).toNat else natChars v.toNat

/-! ## Lexicon data model (lexicon.go) -/

def MsgTypeI : Nat := 0
def MsgTypeS : Nat := 1
def MsgTypeH : Nat := 2

def MsgModeStart : Nat := 0
def MsgModeCont : Nat := 1
def MsgModeEcon : Nat := 2
def MsgModeDelta : Nat := 3
def MsgModeBigmom : Nat := 4
def MsgModeMcpmom : Nat := 5
def MsgModeGuamom2 : Nat := 6
def MsgModeGuamom4 : Nat := 7
def MsgModeCdukeyb : Nat := 8
def MsgModeRcp : Nat := 9
def MsgModeAcp : Nat := 10
def MsgModeMixed : Nat := 11
def MsgModeXdelta : Nat := 12
def MsgModeXecon : Nat := 13
def MsgModeDemand : Nat := 14

/-- A single term of the PSX lexicon (struct `MessageDef`).  `Index` is a Go
`int`, hence `Int` here (Atoi accepts signed input). -/
structure MessageDef where
  MessageType : Nat
  MessageMode : Nat
  Index : Int
  HumanName : List Char
  deriving DecidableEq

/-- `MessageDef.KeyString`: derived wire identifier `"Q" + kindLetter + index`
(empty for an out-of-range message type, mirroring the Go fallthrough). -/
def MessageDef.KeyString (msgdef : MessageDef) : List Char :=
  if msgdef.MessageType = MsgTypeI then 'Q' :: 'i' :: intChars msgdef.Index
  else if msgdef.MessageType = MsgTypeS then 'Q' :: 's' :: intChars msgdef.Index
  else if msgdef.MessageType = MsgTypeH then 'Q' :: 'h' :: intChars msgdef.Index
  else []

/-- The kind-letter switch of `parseLexicon` (`key[1]`). -/
def kindOfChar (c : Char) : Option Nat :=
  if c = 'i' then some MsgTypeI
  else if c = 's' then some MsgTypeS
  else if c = 'h' then some MsgTypeH
  else none

/-- The mode-letter switch of `parseLexicon` (`key[suffixIdx+1]`). -/
def modeOfChar (c : Char) : Option Nat :=
  if c = 'S' then some MsgModeStart
  else if c = 'C' then some MsgModeCont
  else if c = 'E' then some MsgModeEcon
  else if c = 'D' then some MsgModeDelta
  else if c = 'B' then some MsgModeBigmom
  else if c = 'M' then some MsgModeMcpmom
  else if c = 'G' then some MsgModeGuamom2
  else if c = 'F' then some MsgModeGuamom4
  else if c = 'K' then some MsgModeCdukeyb
  else if c = 'R' then some MsgModeRcp
  else if c = 'A' then some MsgModeAcp
  else if c = 'X' then some MsgModeMixed
  else if c = 'Y' then some MsgModeXdelta
  else if c = 'Z' then some MsgModeXecon
  else if c = 'N' then some MsgModeDemand
  else none

/-- Association list standing for a Go `map[string]*MessageDef`: lookup
returns the most recently inserted binding for the key. -/
def lookupAssoc : List (List Char × MessageDef) → List Char → Option MessageDef
  | [], _ => none
  | (k2, d) :: rest, k => if k2 = k then some d else lookupAssoc rest k

/-- The `lexicon` struct: forward maps derived wire ids to definitions,
reverse maps human names to definitions. -/
structure lexicon where
  forward : List (List Char × MessageDef)
  reverse : List (List Char × MessageDef)
  deriving DecidableEq

/-- `newLexicon`: an empty lexicon. -/
def newLexicon : lexicon := ⟨[], []⟩

/-- `lexicon.keyFor`: reverse lookup, empty string when unknown. -/
def lexicon.keyFor (lex : lexicon) (humanName : List Char) : List Char :=
  match lookupAssoc lex.reverse humanName with
  | some def0 => def0.KeyString
  | none => []

/-- `lexicon.humanNameFor`: forward lookup, empty string when unknown. -/
def lexicon.humanNameFor (lex : lexicon) (keyName : List Char) : List Char :=
  match lookupAssoc lex.forward keyName with
  | some def0 => def0.HumanName
  | none => []

/-! ## Wire messages (wiremsg.go)

The Go `WireMsg` carries a pointer to the connection's lexicon; since that
lexicon mutates in place, the embedding passes the lexicon's current value
(`Option lexicon`, `none` for a nil pointer) explicitly to each operation
that dereferences it. -/

/-- The `WireMsg` struct.  `definition` is the lazily-cached resolution. -/
structure WireMsg where
  key : List Char
  HasValue : Bool
  Value : List Char
  definition : Option MessageDef
  deriving DecidableEq

/-- `newWireMsg`: zero-valued message. -/
def newWireMsg : WireMsg := ⟨[], false, [], none⟩

/-- `WireMsg.relinkKey`: recompute the cached definition from the lexicon's
forward index (cleared when the lexicon pointer is nil). -/
def WireMsg.relinkKey (lexO : Option lexicon) (msg : WireMsg) : WireMsg :=
  match lexO with
  | some lex => { msg with definition := lookupAssoc lex.forward msg.key }
  | none => { msg with definition := none }

/-- `WireMsg.SetKey`: set the key; a changed key triggers a deferred relink. -/
def WireMsg.SetKey (lexO : Option lexicon) (msg : WireMsg) (k : List Char) :
    WireMsg :=
  if msg.key = k then { msg with key := k }
  else WireMsg.relinkKey lexO { msg with key := k }

/-- `WireMsg.Parse`: split the line on the first `=`; no `=` means no value
section.  A final relink resolves the key against the lexicon. -/
def WireMsg.Parse (lexO : Option lexicon) (msg : WireMsg) (line : List Char) :
    WireMsg :=
  let m1 :=
    match splitFirst '=' line with
    | none => { msg.SetKey lexO line with HasValue := false }
    | some (k, v) => { msg.SetKey lexO k with HasValue := true, Value := v }
  m1.relinkKey lexO

/-- `parseMsg`: parse a line into a fresh message. -/
def parseMsg (lexO : Option lexicon) (line : List Char) : WireMsg :=
  newWireMsg.Parse lexO line

/-- `WireMsg.GetDecodedKey` (value returned): the cached definition's human
name when a cache exists; otherwise the current lexicon resolution's human
name; otherwise the raw key. -/
def WireMsg.GetDecodedKey (lexO : Option lexicon) (msg : WireMsg) :
    List Char :=
  match msg.definition with
  | some d => d.HumanName
  | none =>
    match lexO with
    | some lex =>
      match lookupAssoc lex.forward msg.key with
      | some d => d.HumanName
      | none => msg.key
    | none => msg.key

/-- `WireMsg.SetDecodedKey`: set the key from a human name via the reverse
index; an unknown name is used literally with the cache cleared. -/
def WireMsg.SetDecodedKey (lexO : Option lexicon) (msg : WireMsg)
    (humanName : List Char) : WireMsg :=
  match lexO with
  | some lex =>
    match lookupAssoc lex.reverse humanName with
    | some d => { msg with definition := some d, key := d.KeyString }
    | none => { msg with definition := none, key := humanName }
  | none => { msg with definition := none, key := humanName }

/-- `WireMsg.WireString`: the line as sent on the wire. -/
def WireMsg.WireString (msg : WireMsg) : List Char :=
  if msg.HasValue then msg.key ++ '=' :: msg.Value else msg.key

/-- Result of `WireMsg.ValueAtSubIndex`: the field, a non-fatal miss, or a
Go runtime panic (negative slice index). -/
inductive SubIdxRes where
  | ok (v : List Char)
  | notFound
  | crash
  deriving DecidableEq

/-- `WireMsg.ValueAtSubIndex`: split the value on `;` and take the field at
`idx`.  The Go code only guards `idx >= len(parts)`, so a negative index
reaches `parts[idx]` and panics. -/
def WireMsg.ValueAtSubIndex (msg : WireMsg) (idx : Int) : SubIdxRes :=
  if msg.HasValue = false then .notFound
  else
    let parts := splitAll ';' msg.Value
    if (parts.length : Int) ≤ idx then .notFound
    else if idx < 0 then .crash
    else .ok (parts.getD idx.toNat [])

/-! ## Lexicon line parser (parseLexicon / lexicon.parse) -/

/-- Result of `parseLexicon`: a definition, a returned error (the lexicon
syntax error or the Atoi error, not distinguished here), or a Go panic
(out-of-range string index). -/
inductive LexParseRes where
  | ok (md : MessageDef)
  | err
  | crash
  deriving DecidableEq

/-- `parseLexicon`: parse a raw definition line `L<kind><idx>(<mode>)=<name>`
from its `WireMsg` form, in the exact order of the Go checks:
`key[0]` (panics on an empty key), minimum length 6, kind letter,
`strings.Index(key, "(")`, `strconv.Atoi(key[2:suffixIdx])`, then
`key[suffixIdx+1]` (panics when the `(` is the last character). -/
def parseLexicon (lexMsg : WireMsg) : LexParseRes :=
  match lexMsg.key.head? with
  | none => .crash
  | some c0 =>
    if c0 ≠ 'L' then .err
    else if lexMsg.key.length < 6 then .err
    else
      match kindOfChar (lexMsg.key.getD 1 ' ') with
      | none => .err
      | some ty =>
        match strIndexOf '(' lexMsg.key with
        | none => .err
        | some suffixIdx =>
          match goAtoi ((lexMsg.key.drop 2).take (suffixIdx - 2)) with
          | .ok idxVal =>
            match lexMsg.key.get? (suffixIdx + 1) with
            | none => .crash
            | some mc =>
              match modeOfChar mc with
              | none => .err
              | some md => .ok ⟨ty, md, idxVal, lexMsg.Value⟩
          | _ => .err

/-- `lexicon.parse`: register a definition line.  A parse error leaves both
indices untouched (the error is returned); success inserts the definition
under its derived wire id and its human name.  A Go panic is `none`. -/
def lexicon.parse (lex : lexicon) (msgIn : WireMsg) : Option lexicon :=
  match parseLexicon msgIn with
  | .ok md =>
    some ⟨(md.KeyString, md) :: lex.forward, (md.HumanName, md) :: lex.reverse⟩
  | .err => some lex
  | .crash => none

/-! ## Connection engine (psx.go)

The engine is embedded as a per-line step function.  Transport reads and
writes are externalized: the step takes the received line and returns the
updated connection together with the list of lines the built-in reactions
sent.  User callback hooks are outside the model (they receive the message
after the built-in reaction and do not take part in any claim). -/

def connPhaseDisconnected : Nat := 0
def connPhaseNew : Nat := 1
def connPhaseLoad1 : Nat := 2
def connPhaseLoad2 : Nat := 3
def connPhaseRunning : Nat := 4
def connPhaseFailed : Nat := 5
def connPhaseEnded : Nat := 6
def connPhaseListenerExited : Nat := 7

/-- The `Connection` struct (the fields the protocol engine reads or
writes; transport handle and hooks are externalized). -/
structure Connection where
  ClientName : List Char
  InstanceName : List Char
  myId : Int
  version : List Char
  connPhase : Nat
  notify : List (List Char)
  lex : lexicon
  deriving DecidableEq

/-- `Connection.NewPair`: build a message from a human-readable key and a
value, resolving the key through the connection's lexicon. -/
def Connection.NewPair (pconn : Connection) (humanKey value : List Char) :
    WireMsg :=
  let m := newWireMsg.SetDecodedKey (some pconn.lex) humanKey
  { m with HasValue := true, Value := value }

/-- The line `sendName` writes: a `name` pair carrying
`ClientName[;InstanceName]`. -/
def Connection.sendNameLine (pconn : Connection) : List Char :=
  let nameOut :=
    if pconn.InstanceName ≠ [] then
      pconn.ClientName ++ ';' :: pconn.InstanceName
    else pconn.ClientName
  (pconn.NewPair (s "name") nameOut).WireString

/-- The wire ids `sendNotify` collects: each subscribed human name that
resolves through the lexicon; unresolved names are dropped. -/
def Connection.notifyKeys (pconn : Connection) : List (List Char) :=
  pconn.notify.filterMap fun v =>
    if pconn.lex.keyFor v = [] then none else some (pconn.lex.keyFor v)

/-- The lines `sendNotify` writes: one `notify` pair joining the resolved
ids with `;`, or nothing at all when no subscribed name resolves. -/
def Connection.sendNotifyLines (pconn : Connection) : List (List Char) :=
  if pconn.notifyKeys.length > 0 then
    [(pconn.NewPair (s "notify") (joinSep ';' pconn.notifyKeys)).WireString]
  else []

/-- One iteration of `Listener` on a received line: the hard-coded reactions
switch on the wire key.  `none` models a Go panic (indexing an empty key in
the `New`-phase learning branch, or a panic inside `lexicon.parse`). -/
def engineStep (pconn : Connection) (line : List Char) :
    Option (Connection × List (List Char)) :=
  let msg := parseMsg (some pconn.lex) line
  if msg.key = s "id" then
    some ({ pconn with myId := goAtoiValue msg.Value }, [pconn.sendNameLine])
  else if msg.key = s "version" then
    some ({ pconn with version := msg.Value }, [])
  else if msg.key = s "load1" then
    if pconn.connPhase = connPhaseNew then
      some ({ pconn with connPhase := connPhaseLoad1 }, pconn.sendNotifyLines)
    else some ({ pconn with connPhase := connPhaseLoad1 }, [])
  else if msg.key = s "load2" then
    some ({ pconn with connPhase := connPhaseLoad2 }, [])
  else if msg.key = s "load3" then
    some ({ pconn with connPhase := connPhaseRunning }, [])
  else if msg.key = s "exit" then
    some ({ pconn with connPhase := connPhaseEnded }, [])
  else
    if msg.HasValue = false then some (pconn, [])
    else if pconn.connPhase = connPhaseNew then
      match msg.key.head? with
      | none => none
      | some h =>
        if h = 'L' then
          match pconn.lex.parse msg with
          | some lex2 => some ({ pconn with lex := lex2 }, [])
          | none => none
        else some (pconn, [])
    else some (pconn, [])

/-- Run the listener over a list of received lines, collecting the outbound
lines of each step; `none` when some step panics. -/
def runEngine (pconn : Connection) :
    List (List Char) → Option (Connection × List (List (List Char)))
  | [] => some (pconn, [])
  | line :: rest =>
    match engineStep pconn line with
    | none => none
    | some (c2, out) =>
      match runEngine c2 rest with
      | none => none
      | some (c3, outs) => some (c3, out :: outs)

/-- A freshly connected engine: the state `NewConnection` builds (empty
lexicon, empty subscription list, zero-valued id and version) after
`Connect` has moved the phase to `New`. -/
def freshConn (clientName : List Char) : Connection :=
  ⟨clientName, [], 0, [], connPhaseNew, [], newLexicon⟩

/-! ## Helper lemmas: splitting, indexing -/

lemma splitFirst_of_not_mem {sep : Char} {l : List Char} (h : sep ∉ l) :
    splitFirst sep l = none := by
  induction l with
  | nil => rfl
  | cons c rest ih =>
    rw [splitFirst, if_neg (by intro hc; exact h (hc ▸ List.mem_cons_self c rest)),
      ih (fun hm => h (List.mem_cons_of_mem c hm))]
    rfl

lemma splitFirst_append {sep : Char} {k v : List Char} (h : sep ∉ k) :
    splitFirst sep (k ++ sep :: v) = some (k, v) := by
  induction k with
  | nil => simp [splitFirst]
  | cons c rest ih =>
    rw [List.cons_append, splitFirst,
      if_neg (by intro hc; exact h (hc ▸ List.mem_cons_self c rest)),
      ih (fun hm => h (List.mem_cons_of_mem c hm))]
    rfl

lemma strIndexOf_append {c : Char} {xs ys : List Char}
    (h : ∀ x ∈ xs, x ≠ c) :
    strIndexOf c (xs ++ c :: ys) = some xs.length := by
  induction xs with
  | nil => simp [strIndexOf]
  | cons x rest ih =>
    rw [List.cons_append, strIndexOf, if_neg (h x (List.mem_cons_self x rest)),
      ih (fun y hy => h y (List.mem_cons_of_mem x hy))]
    simp

/-! ## Helper lemmas: decimal digits round-trip -/

lemma digitChar_isDigit {d : Nat} (h : d < 10) :
    (Nat.digitChar d).isDigit = true := by
  interval_cases d <;> decide

lemma digitVal_digitChar {d : Nat} (h : d < 10) :
    digitVal (Nat.digitChar d) = some d := by
  interval_cases d <;> decide

lemma digitsAuxF_lt (fuel : Nat) :
    ∀ n, ∀ d ∈ digitsAuxF fuel n, d < 10 := by
  induction fuel with
  | zero => intro n d hd; simp [digitsAuxF] at hd
  | succ f ih =>
    intro n d hd
    rw [digitsAuxF] at hd
    by_cases hn : n = 0
    · simp [hn] at hd
    · rw [if_neg hn] at hd
      rcases List.mem_cons.mp hd with h1 | h2
      · exact h1 ▸ Nat.mod_lt n (by norm_num)
      · exact ih (n / 10) d h2

lemma ofDigits_digitsAuxF (fuel : Nat) :
    ∀ n, n ≤ fuel → Nat.ofDigits 10 (digitsAuxF fuel n) = n := by
  induction fuel with
  | zero =>
    intro n hn
    have : n = 0 := Nat.le_zero.mp hn
    simp [this, digitsAuxF, Nat.ofDigits_nil]
  | succ f ih =>
    intro n hn
    rw [digitsAuxF]
    by_cases hn0 : n = 0
    · simp [hn0, Nat.ofDigits_nil]
    · rw [if_neg hn0, Nat.ofDigits_cons,
        ih (n / 10) (by
          have h1 : n / 10 < n := Nat.div_lt_self (Nat.pos_of_ne_zero hn0) (by norm_num)
          omega)]
      omega

lemma digitsAuxF_ne_nil {n : Nat} (h : n ≠ 0) : digitsAuxF n n ≠ [] := by
  cases n with
  | zero => exact absurd rfl h
  | succ m => rw [digitsAuxF, if_neg h]; exact List.cons_ne_nil _ _

lemma foldl_num_ge (T : List Nat) : ∀ a : Nat,
    a ≤ T.foldl (fun x d => x * 10 + d) a := by
  induction T with
  | nil => intro a; exact le_rfl
  | cons d R ih =>
    intro a
    rw [List.foldl_cons]
    exact le_trans (by omega) (ih (a * 10 + d))

lemma parseUintLoop_map {L : List Nat} (h : ∀ d ∈ L, d < 10) :
    ∀ a : Nat, L.foldl (fun x d => x * 10 + d) a ≤ uint64Max →
      parseUintLoop a (L.map Nat.digitChar) =
        AtoiUintRes.okU (L.foldl (fun x d => x * 10 + d) a) := by
  induction L with
  | nil => intro a _; rfl
  | cons d T ih =>
    intro a hb
    rw [List.foldl_cons] at hb
    simp only [List.map_cons, parseUintLoop,
      digitVal_digitChar (h d (List.mem_cons_self d T))]
    rw [if_neg (not_lt.mpr (le_trans (foldl_num_ge T (a * 10 + d)) hb))]
    rw [List.foldl_cons]
    exact ih (fun x hx => h x (List.mem_cons_of_mem d hx)) (a * 10 + d) hb

lemma foldl_num_reverse (L : List Nat) :
    ∀ a : Nat, L.reverse.foldl (fun x d => x * 10 + d) a =
      Nat.ofDigits 10 L + a * 10 ^ L.length := by
  induction L with
  | nil => intro a; simp [Nat.ofDigits_nil]
  | cons d T ih =>
    intro a
    rw [List.reverse_cons, List.foldl_append, ih a, List.foldl_cons,
      List.foldl_nil, Nat.ofDigits_cons, List.length_cons]
    simp only [pow_succ]
    ring

lemma natChars_ne_nil (n : Nat) : natChars n ≠ [] := by
  rw [natChars]
  by_cases h : n = 0
  · simp [h]
  · rw [if_neg h]
    simp only [ne_eq, List.reverse_eq_nil_iff, List.map_eq_nil_iff]
    exact digitsAuxF_ne_nil h

lemma natChars_isDigit {n : Nat} : ∀ c ∈ natChars n, c.isDigit = true := by
  intro c hc
  rw [natChars] at hc
  by_cases h : n = 0
  · rw [if_pos h] at hc
    rcases List.mem_singleton.mp hc with rfl
    decide
  · rw [if_neg h, List.mem_reverse] at hc
    rcases List.mem_map.mp hc with ⟨d, hd, rfl⟩
    exact digitChar_isDigit (digitsAuxF_lt n n d hd)

lemma parseUintLoop_natChars {n : Nat} (hb : n ≤ uint64Max) :
    parseUintLoop 0 (natChars n) = AtoiUintRes.okU n := by
  by_cases h : n = 0
  · subst h; decide
  · have hmap : natChars n = ((digitsAuxF n n).reverse).map Nat.digitChar := by
      rw [natChars, if_neg h, List.map_reverse]
    have hval : (digitsAuxF n n).reverse.foldl (fun x d => x * 10 + d) 0
        = n := by
      rw [foldl_num_reverse, ofDigits_digitsAuxF n n le_rfl]
      simp
    rw [hmap,
      parseUintLoop_map
        (fun d hd => digitsAuxF_lt n n d (List.mem_reverse.mp hd)) 0
        (by rw [hval]; exact hb),
      hval]

lemma isDigit_ne_of {c x : Char} (hc : c.isDigit = true)
    (hx : x.isDigit = false) : c ≠ x := by
  intro h
  rw [h, hx] at hc
  exact Bool.false_ne_true hc

lemma goAtoiDigits_false_natChars {n : Nat} (h : (n : Int) ≤ int64Max) :
    goAtoiDigits false (natChars n) = .ok n := by
  have hn : n < intCutoff := by
    have h2 : (n : Int) ≤ 9223372036854775807 := h
    have h3 : n ≤ 9223372036854775807 := by exact_mod_cast h2
    show n < 9223372036854775808
    omega
  have hb : n ≤ uint64Max := by
    show n ≤ 18446744073709551615
    have h4 : n < 9223372036854775808 := hn
    omega
  obtain ⟨c, rest, hcr⟩ := List.exists_cons_of_ne_nil (natChars_ne_nil n)
  rw [hcr]
  simp only [goAtoiDigits]
  rw [← hcr]
  simp only [parseUintLoop_natChars hb, Bool.false_eq_true, if_false]
  rw [if_neg (show ¬(intCutoff ≤ n) from not_le.mpr hn)]

lemma goAtoi_natChars {n : Nat} (h : (n : Int) ≤ int64Max) :
    goAtoi (natChars n) = .ok n := by
  obtain ⟨c, rest, hcr⟩ := List.exists_cons_of_ne_nil (natChars_ne_nil n)
  have hcd : c.isDigit = true :=
    natChars_isDigit c (by rw [hcr]; exact List.mem_cons_self c rest)
  rw [goAtoi.eq_def, hcr]
  simp only
  rw [if_neg (isDigit_ne_of hcd (by decide)),
    if_neg (isDigit_ne_of hcd (by decide)), ← hcr]
  exact goAtoiDigits_false_natChars h

/-! ## Message parse shape -/

lemma parseMsg_key (lexO : Option lexicon) (line : List Char) :
    (parseMsg lexO line).key =
      (match splitFirst '=' line with
       | none => line
       | some (k, _) => k) := by
  rw [parseMsg, WireMsg.Parse]
  cases hs : splitFirst '=' line with
  | none =>
    cases lexO <;>
      simp [WireMsg.SetKey, WireMsg.relinkKey, newWireMsg] <;> split <;> simp
  | some p =>
    cases lexO <;>
      simp [WireMsg.SetKey, WireMsg.relinkKey, newWireMsg] <;> split <;> simp

lemma parseMsg_hasValue (lexO : Option lexicon) (line : List Char) :
    (parseMsg lexO line).HasValue =
      (match splitFirst '=' line with
       | none => false
       | some _ => true) := by
  rw [parseMsg, WireMsg.Parse]
  cases hs : splitFirst '=' line with
  | none =>
    cases lexO <;>
      simp [WireMsg.SetKey, WireMsg.relinkKey, newWireMsg] <;> split <;> simp
  | some p =>
    cases lexO <;>
      simp [WireMsg.SetKey, WireMsg.relinkKey, newWireMsg] <;> split <;> simp

lemma parseMsg_value (lexO : Option lexicon) (line : List Char) :
    (parseMsg lexO line).Value =
      (match splitFirst '=' line with
       | none => []
       | some (_, v) => v) := by
  rw [parseMsg, WireMsg.Parse]
  cases hs : splitFirst '=' line with
  | none =>
    cases lexO <;>
      simp [WireMsg.SetKey, WireMsg.relinkKey, newWireMsg] <;> split <;> simp
  | some p =>
    cases lexO <;>
      simp [WireMsg.SetKey, WireMsg.relinkKey, newWireMsg] <;> split <;> simp

/-- Claim C6: serializing a message whose wire identifier contains no `=`
(wireId alone without a value, wireId=value otherwise) and parsing the
result against the same lexicon restores the wire identifier, the has-value
flag and, when a value is present, the exact value string — even when the
value itself contains `=` or `;`. -/
theorem c6_serialize_roundtrip (lexO : Option lexicon) (msg : WireMsg)
    (h : '=' ∉ msg.key) :
    (parseMsg lexO msg.WireString).key = msg.key ∧
    (parseMsg lexO msg.WireString).HasValue = msg.HasValue ∧
    (msg.HasValue = true → (parseMsg lexO msg.WireString).Value = msg.Value) := by
  cases hv : msg.HasValue with
  | false =>
    have hline : msg.WireString = msg.key := by
      rw [WireMsg.WireString, if_neg (by rw [hv]; exact Bool.false_ne_true)]
    have hs : splitFirst '=' msg.WireString = none := by
      rw [hline]; exact splitFirst_of_not_mem h
    refine ⟨?_, ?_, ?_⟩
    · rw [parseMsg_key, hs, hline]
    · rw [parseMsg_hasValue, hs]
    · intro habs; exact absurd habs Bool.false_ne_true
  | true =>
    have hline : msg.WireString = msg.key ++ '=' :: msg.Value := by
      rw [WireMsg.WireString, if_pos hv]
    have hs : splitFirst '=' msg.WireString = some (msg.key, msg.Value) := by
      rw [hline]; exact splitFirst_append h
    refine ⟨?_, ?_, ?_⟩
    · rw [parseMsg_key, hs]
    · rw [parseMsg_hasValue, hs]
    · intro _; rw [parseMsg_value, hs]

/-- Witness for C6 at a concrete message whose value contains both `=` and
`;`. -/
theorem c6_serialize_witness :
    (parseMsg none (WireMsg.WireString ⟨s "Qh402", true, s "34;x=1", none⟩)).key
        = (⟨s "Qh402", true, s "34;x=1", none⟩ : WireMsg).key ∧
    (parseMsg none (WireMsg.WireString ⟨s "Qh402", true, s "34;x=1", none⟩)).HasValue
        = (⟨s "Qh402", true, s "34;x=1", none⟩ : WireMsg).HasValue ∧
    ((⟨s "Qh402", true, s "34;x=1", none⟩ : WireMsg).HasValue = true →
      (parseMsg none (WireMsg.WireString ⟨s "Qh402", true, s "34;x=1", none⟩)).Value
        = (⟨s "Qh402", true, s "34;x=1", none⟩ : WireMsg).Value) :=
  c6_serialize_roundtrip none ⟨s "Qh402", true, s "34;x=1", none⟩ (by decide)

/-! ## Claim C8: ValueAtSubIndex -/

/-- Counterexample to C8 as stated: a negative index on a message that has a
value reaches `parts[idx]` in Go (only `idx >= len(parts)` is guarded) and
panics instead of producing the claimed non-fatal not-found result. -/
theorem c8_subindex_counterexample :
    WireMsg.ValueAtSubIndex ⟨s "Qi1", true, s "a;b", none⟩ (-1) =
      SubIdxRes.crash := by decide

/-- Claim C8 (amended): for every message and every index `i ≥ 0`,
`ValueAtSubIndex` is total and non-fatal: it returns the i-th `;`-separated
field when the message has a value and the field exists, and the distinct
not-found result in every other case (no value, or `i` past the last
field).  A negative `i` is excluded: it panics (see the counterexample). -/
theorem c8_subindex_amended (msg : WireMsg) (i : Int) (h : 0 ≤ i) :
    msg.ValueAtSubIndex i =
      (if msg.HasValue = true ∧ i < ((splitAll ';' msg.Value).length : Int) then
        SubIdxRes.ok ((splitAll ';' msg.Value).getD i.toNat [])
      else SubIdxRes.notFound) := by
  rw [WireMsg.ValueAtSubIndex]
  cases hv : msg.HasValue with
  | false =>
    rw [if_pos rfl, if_neg]
    intro hc
    exact Bool.false_ne_true hc.1
  | true =>
    rw [if_neg (fun hc => Bool.false_ne_true hc.symm)]
    by_cases hlen : ((splitAll ';' msg.Value).length : Int) ≤ i
    · rw [if_pos hlen, if_neg (fun hc => absurd hc.2 (not_lt.mpr hlen))]
    · rw [if_neg hlen, if_neg (not_lt.mpr h),
        if_pos ⟨rfl, not_le.mp hlen⟩]

/-- Witness for C8: the second field of `a;b` at index 1. -/
theorem c8_subindex_witness :
    WireMsg.ValueAtSubIndex ⟨s "Qi1", true, s "a;b", none⟩ 1 =
      SubIdxRes.ok (s "b") := by
  rw [c8_subindex_amended ⟨s "Qi1", true, s "a;b", none⟩ 1 (by decide)]
  decide

/-! ## Claim C7: GetDecodedKey -/

def cexDefA : MessageDef := ⟨MsgTypeI, MsgModeStart, 1, s "A"⟩
def cexDefB : MessageDef := ⟨MsgTypeI, MsgModeStart, 1, s "B"⟩

/-- The lexicon after registering `Li1(S)=A` into an empty lexicon. -/
def cexLex1 : lexicon := ⟨[(s "Qi1", cexDefA)], [(s "A", cexDefA)]⟩

/-- The lexicon after additionally registering `Li1(S)=B` (same wire id,
different human name). -/
def cexLex2 : lexicon :=
  ⟨[(s "Qi1", cexDefB), (s "Qi1", cexDefA)],
   [(s "B", cexDefB), (s "A", cexDefA)]⟩

/-- Counterexample to C7 as stated: a message parsed while `Qi1` meant `A`
keeps the cached definition; after `Qi1` is re-registered as `B`, the
lexicon currently holds a definition with human name `B` for the message's
wire identifier, yet `GetDecodedKey` still returns `A`. -/
theorem c7_decoded_counterexample :
    lexicon.parse newLexicon (parseMsg none (s "Li1(S)=A")) = some cexLex1 ∧
    lexicon.parse cexLex1 (parseMsg none (s "Li1(S)=B")) = some cexLex2 ∧
    (parseMsg (some cexLex1) (s "Qi1=5")).GetDecodedKey (some cexLex2)
      = s "A" ∧
    lookupAssoc cexLex2.forward (parseMsg (some cexLex1) (s "Qi1=5")).key
      = some cexDefB ∧
    cexDefB.HumanName = s "B" ∧
    s "A" ≠ s "B" := by decide

/-- Claim C7 (amended): for every message whose cached resolution is empty
— in particular any message parsed before its definition was learned —
`GetDecodedKey` returns the human name of the definition the lexicon
currently holds for the message's wire identifier when one exists, and the
raw wire identifier unchanged otherwise; it never fails.  (A non-empty
cache is returned as-is and may predate a later re-registration; the
result is empty only when the stored human name or the raw identifier is
itself empty.) -/
theorem c7_decoded_amended (lex : lexicon) (msg : WireMsg)
    (h : msg.definition = none) :
    (∀ d, lookupAssoc lex.forward msg.key = some d →
      msg.GetDecodedKey (some lex) = d.HumanName) ∧
    (lookupAssoc lex.forward msg.key = none →
      msg.GetDecodedKey (some lex) = msg.key) := by
  constructor
  · intro d hd
    rw [WireMsg.GetDecodedKey, h, hd]
  · intro hn
    rw [WireMsg.GetDecodedKey, h, hn]

/-- Witness for C7: a message parsed with no lexicon attached (empty cache)
decodes through `cexLex1` to the later-learned name `A`. -/
theorem c7_decoded_witness :
    (parseMsg none (s "Qi1=5")).GetDecodedKey (some cexLex1) = s "A" := by
  have h := (c7_decoded_amended cexLex1 (parseMsg none (s "Qi1=5"))
    (by decide)).1 cexDefA (by decide)
  rw [h]
  decide

/-! ## Claim C5: no identifier learning outside the New phase -/

/-- Claim C5: in every engine state whose phase is not `New`, processing a
received definition line (a valued line whose key begins with `L` and is
none of the reserved identifiers) is a no-op: in particular the lexicon is
unchanged, so identifier learning happens only inside the `New`-phase
acquisition window. -/
theorem c5_no_learning (pconn : Connection) (line : List Char)
    (hph : pconn.connPhase ≠ connPhaseNew)
    (hv : (parseMsg (some pconn.lex) line).HasValue = true)
    (hL : (parseMsg (some pconn.lex) line).key.head? = some 'L')
    (hres : (parseMsg (some pconn.lex) line).key ∉
      [s "id", s "version", s "load1", s "load2", s "load3", s "exit",
        s "name", s "notify"]) :
    engineStep pconn line = some (pconn, []) := by
  simp only [List.mem_cons, List.mem_singleton, not_or] at hres
  obtain ⟨h1, h2, h3, h4, h5, h6, _, _⟩ := hres
  rw [engineStep]
  rw [if_neg h1, if_neg h2, if_neg h3, if_neg h4, if_neg h5, if_neg h6,
    if_neg (by rw [hv]; exact fun hc => Bool.false_ne_true hc.symm),
    if_neg hph]

/-- Witness for C5: a definition line received in the `Running` phase
changes nothing. -/
theorem c5_no_learning_witness :
    engineStep ⟨s "cli", [], 0, [], connPhaseRunning, [], newLexicon⟩
        (s "Li1(S)=A") =
      some (⟨s "cli", [], 0, [], connPhaseRunning, [], newLexicon⟩, []) :=
  c5_no_learning _ _ (by decide) (by decide) (by decide) (by decide)

/-! ## Claim C9: no empty notify pair -/

lemma filterMap_nil_iff {α β : Type} (f : α → Option β) (l : List α) :
    l.filterMap f = [] ↔ ∀ a ∈ l, f a = none := by
  induction l with
  | nil => simp
  | cons x t ih => rw [List.filterMap_cons]; cases hfx : f x <;> simp [hfx, ih]

lemma notifyKeys_nil_iff (pconn : Connection) :
    pconn.notifyKeys = [] ↔ ∀ v ∈ pconn.notify, pconn.lex.keyFor v = [] := by
  rw [Connection.notifyKeys, filterMap_nil_iff]
  constructor
  · intro h v hv
    by_contra hne
    have hcontra := h v hv
    rw [if_neg hne] at hcontra
    exact Option.some_ne_none _ hcontra
  · intro h v hv
    rw [if_pos (h v hv)]

lemma sendNotifyLines_nil_iff (pconn : Connection) :
    pconn.sendNotifyLines = [] ↔ pconn.notifyKeys = [] := by
  rw [Connection.sendNotifyLines]
  by_cases h : pconn.notifyKeys.length > 0
  · rw [if_pos h]
    constructor
    · intro hc; exact absurd hc (List.cons_ne_nil _ _)
    · intro hnil; rw [hnil] at h; exact absurd h (by decide)
  · rw [if_neg h]
    have hlen : pconn.notifyKeys.length = 0 := by omega
    exact ⟨fun _ => List.length_eq_zero.mp hlen, fun _ => rfl⟩

/-- Claim C9: a `load1` received in the `New` phase moves the phase to the
first acquiring phase and emits the notify lines; those are empty — no
notify pair at all, not an empty one — exactly when no subscribed human
name currently resolves through the lexicon (in particular when the
subscription list is empty). -/
theorem c9_notify_nonempty (pconn : Connection)
    (h : pconn.connPhase = connPhaseNew) :
    engineStep pconn (s "load1") =
      some ({ pconn with connPhase := connPhaseLoad1 },
        pconn.sendNotifyLines) ∧
    (pconn.sendNotifyLines = [] ↔
      ∀ v ∈ pconn.notify, pconn.lex.keyFor v = []) := by
  constructor
  · have hstep : engineStep pconn (s "load1") =
        (if pconn.connPhase = connPhaseNew then
          some ({ pconn with connPhase := connPhaseLoad1 },
            pconn.sendNotifyLines)
        else some ({ pconn with connPhase := connPhaseLoad1 }, [])) := rfl
    rw [hstep, if_pos h]
  · rw [sendNotifyLines_nil_iff]
    exact notifyKeys_nil_iff pconn

/-- Witness for C9: a fresh connection has an empty subscription list, so
`load1` produces no notify line. -/
theorem c9_notify_witness :
    engineStep (freshConn (s "cli")) (s "load1") =
      some ({ freshConn (s "cli") with connPhase := connPhaseLoad1 },
        (freshConn (s "cli")).sendNotifyLines) ∧
    ((freshConn (s "cli")).sendNotifyLines = [] ↔
      ∀ v ∈ (freshConn (s "cli")).notify,
        (freshConn (s "cli")).lex.keyFor v = []) :=
  c9_notify_nonempty (freshConn (s "cli")) rfl

/-! ## Claim C10: malformed id value -/

/-- Counterexample to C10 as stated: the value of
`id=99999999999999999999x` (twenty nines, then `x`) is not a valid decimal
integer, so the claim requires the assigned id to become 0; but Go `Atoi`
detects unsigned overflow at the twentieth digit — before ever reaching
the `x` — and returns a range error with the clamped value, so the engine
sets the assigned id to 9223372036854775807, not 0. -/
theorem c10_id_counterexample :
    goAtoi (s "99999999999999999999x") = AtoiRes.rangeBad int64Max ∧
    engineStep (freshConn (s "cli"))
        ('i' :: 'd' :: '=' :: s "99999999999999999999x") =
      some ({ freshConn (s "cli") with myId := 9223372036854775807 },
        [(freshConn (s "cli")).sendNameLine]) ∧
    (9223372036854775807 : Int) ≠ 0 := by decide

/-- Claim C10 (amended): an `id` message whose value fails Go integer
parsing with a syntax error — a non-digit or sign problem reached before
any overflow, including the missing-value form `id` — is handled without
any failure: the assigned id becomes 0 (Go `Atoi` returns 0 alongside the
discarded error) and the outbound identity `name` pair is still sent,
exactly as for a well-formed `id` message.  A value whose digit prefix
overflows before its first bad character instead sets the assigned id to
the clamped 64-bit bound (see the counterexample). -/
theorem c10_id_fallback (pconn : Connection) (v : List Char)
    (h : goAtoi v = AtoiRes.syntaxBad) :
    engineStep pconn ('i' :: 'd' :: '=' :: v) =
      some ({ pconn with myId := 0 }, [pconn.sendNameLine]) ∧
    engineStep pconn (s "id") =
      some ({ pconn with myId := 0 }, [pconn.sendNameLine]) := by
  constructor
  · have hstep : engineStep pconn ('i' :: 'd' :: '=' :: v) =
        some ({ pconn with myId := goAtoiValue v }, [pconn.sendNameLine]) :=
      rfl
    have hval : goAtoiValue v = 0 := by rw [goAtoiValue, h]
    rw [hstep, hval]
  · rfl

/-- Witness for C10 at the non-numeric value `abc`. -/
theorem c10_id_fallback_witness :
    engineStep (freshConn (s "cli")) ('i' :: 'd' :: '=' :: s "abc") =
      some ({ freshConn (s "cli") with myId := 0 },
        [(freshConn (s "cli")).sendNameLine]) ∧
    engineStep (freshConn (s "cli")) (s "id") =
      some ({ freshConn (s "cli") with myId := 0 },
        [(freshConn (s "cli")).sendNameLine]) :=
  c10_id_fallback (freshConn (s "cli")) (s "abc") (by decide)

/-! ## Claim C1: the handshake scenario -/

def scenarioLines : List (List Char) :=
  [s "id=7", s "version=1.0", s "load1", s "load2", s "load3"]

/-- Counterexample to C1 as stated: running the scenario on a freshly
connected engine produces exactly one outbound line total — the `name`
pair right after `id` — and the `load1` step emits nothing: the
subscription list of a fresh engine is empty (and the lexicon is empty),
so `sendNotify` writes no `notify` pair, contradicting the claimed
"exactly one outbound notify send". -/
theorem c1_scenario_counterexample :
    runEngine (freshConn (s "cli")) scenarioLines =
      some (⟨s "cli", [], 7, s "1.0", connPhaseRunning, [], newLexicon⟩,
        [[s "name=cli"], [], [], [], []]) := by decide

/-- Claim C1 (amended): feeding `id=7`, `version=1.0`, `load1`, `load2`,
`load3` into a freshly connected engine drives the phase through the two
acquiring phases to `Running`, sets the assigned id to 7 and the remote
version to `1.0`, and sends exactly one identity `name` pair immediately
after `id` and nothing else — in particular no `notify` pair after
`load1`, because the fresh engine's subscription list is empty. -/
theorem c1_scenario_amended (cn : List Char) :
    runEngine (freshConn cn) scenarioLines =
      some (⟨cn, [], 7, s "1.0", connPhaseRunning, [], newLexicon⟩,
        [[s "name=" ++ cn], [], [], [], []]) ∧
    (runEngine (freshConn cn) (scenarioLines.take 3)).map
        (fun p => p.1.connPhase) = some connPhaseLoad1 ∧
    (runEngine (freshConn cn) (scenarioLines.take 4)).map
        (fun p => p.1.connPhase) = some connPhaseLoad2 :=
  ⟨rfl, rfl, rfl⟩

/-! ## Claim C2: consistency of the two lexicon indices -/

/-- One registration step over an optional lexicon (panic propagates). -/
def registerStep (acc : Option lexicon) (line : List Char) : Option lexicon :=
  match acc with
  | none => none
  | some lx => lx.parse (parseMsg none line)

/-- Register a list of raw definition lines into an initially empty
lexicon; `none` when some line makes the parser panic. -/
def registerAll (lines : List (List Char)) : Option lexicon :=
  lines.foldl registerStep (some newLexicon)

/-- The definitions successfully parsed out of a list of raw lines. -/
def defsOf (lines : List (List Char)) : List MessageDef :=
  lines.filterMap fun line =>
    match parseLexicon (parseMsg none line) with
    | .ok md => some md
    | _ => none

lemma registerStep_foldl_none (lines : List (List Char)) :
    lines.foldl registerStep none = none := by
  induction lines with
  | nil => rfl
  | cons line rest ih => rw [List.foldl_cons]; exact ih

lemma registerStep_foldl_shape (lines : List (List Char)) :
    ∀ lx0 lx : lexicon,
      lines.foldl registerStep (some lx0) = some lx →
      lx.forward =
        ((defsOf lines).reverse.map fun d => (d.KeyString, d)) ++ lx0.forward ∧
      lx.reverse =
        ((defsOf lines).reverse.map fun d => (d.HumanName, d)) ++ lx0.reverse
    := by
  induction lines with
  | nil =>
    intro lx0 lx h
    obtain rfl := Option.some.inj h
    simp [defsOf]
  | cons line rest ih =>
    intro lx0 lx h
    rw [List.foldl_cons] at h
    have hdefs : defsOf (line :: rest) =
        (match parseLexicon (parseMsg none line) with
         | .ok md => some md
         | _ => none).toList ++ defsOf rest := by
      rw [defsOf, List.filterMap_cons, defsOf]
      cases parseLexicon (parseMsg none line) <;> simp
    cases hp : parseLexicon (parseMsg none line) with
    | ok md =>
      have hstep : registerStep (some lx0) line =
          some ⟨(md.KeyString, md) :: lx0.forward,
            (md.HumanName, md) :: lx0.reverse⟩ := by
        rw [registerStep, lexicon.parse, hp]
      rw [hstep] at h
      obtain ⟨hf, hr⟩ := ih _ lx h
      rw [hdefs, hp]
      constructor
      · rw [hf]; simp
      · rw [hr]; simp
    | err =>
      have hstep : registerStep (some lx0) line = some lx0 := by
        rw [registerStep, lexicon.parse, hp]
      rw [hstep] at h
      obtain ⟨hf, hr⟩ := ih _ lx h
      rw [hdefs, hp]
      exact ⟨hf, hr⟩
    | crash =>
      have hstep : registerStep (some lx0) line = none := by
        rw [registerStep, lexicon.parse, hp]
      rw [hstep, registerStep_foldl_none] at h
      exact absurd h (by simp)

lemma lookupAssoc_map_mem {f : MessageDef → List Char} {ds : List MessageDef}
    {k : List Char} {d : MessageDef}
    (h : lookupAssoc (ds.map fun x => (f x, x)) k = some d) :
    d ∈ ds ∧ f d = k := by
  induction ds with
  | nil => exact absurd h (by simp [lookupAssoc])
  | cons x t ih =>
    rw [List.map_cons, lookupAssoc] at h
    by_cases hx : f x = k
    · rw [if_pos hx] at h
      obtain rfl := Option.some.inj h
      exact ⟨List.mem_cons_self x t, hx⟩
    · rw [if_neg hx] at h
      obtain ⟨hm, hf⟩ := ih h
      exact ⟨List.mem_cons_of_mem x hm, hf⟩

lemma lookupAssoc_map_self {f : MessageDef → List Char} {ds : List MessageDef}
    (hnd : (ds.map f).Nodup) {d : MessageDef} (hd : d ∈ ds) :
    lookupAssoc (ds.map fun x => (f x, x)) (f d) = some d := by
  induction ds with
  | nil => exact absurd hd (List.not_mem_nil d)
  | cons x t ih =>
    rw [List.map_cons] at hnd
    rw [List.map_cons, lookupAssoc]
    rcases List.mem_cons.mp hd with rfl | hdt
    · rw [if_pos rfl]
    · have hne : f x ≠ f d := by
        intro he
        exact (List.nodup_cons.mp hnd).1 (he ▸ List.mem_map_of_mem f hdt)
      rw [if_neg hne]
      exact ih (List.nodup_cons.mp hnd).2 hdt

/-- Counterexample to C2 as stated: after registering `Li1(S)=A` and then
`Li1(S)=B` (same wire id, different human name), the definition for `A` is
still reachable through the reverse index, but the forward index maps its
derived wire id `Qi1` to the `B` definition — the two indices are no
longer consistent views of one definition set. -/
theorem c2_invariant_counterexample :
    lexicon.parse newLexicon (parseMsg none (s "Li1(S)=A")) = some cexLex1 ∧
    lexicon.parse cexLex1 (parseMsg none (s "Li1(S)=B")) = some cexLex2 ∧
    lookupAssoc cexLex2.reverse (s "A") = some cexDefA ∧
    lookupAssoc cexLex2.forward cexDefA.KeyString = some cexDefB ∧
    cexDefB ≠ cexDefA := by decide

/-- Claim C2 (amended): for every sequence of definition-line registrations
in which the successfully parsed definitions have pairwise-distinct derived
wire identifiers and pairwise-distinct human names, the two indices are
consistent: every definition reachable through either index is mapped back
to itself both by the forward index under its derived wire identifier and
by the reverse index under its human name.  Without that freshness
condition the invariant fails (see the counterexample): re-registering a
wire identifier under a different human name leaves a stale reverse entry
whose forward lookup resolves to the newer definition. -/
theorem c2_invariant_amended (lines : List (List Char)) (lex : lexicon)
    (hreg : registerAll lines = some lex)
    (hkeys : ((defsOf lines).map MessageDef.KeyString).Nodup)
    (hnames : ((defsOf lines).map MessageDef.HumanName).Nodup)
    (d : MessageDef)
    (hreach : (∃ k, lookupAssoc lex.forward k = some d) ∨
      (∃ n, lookupAssoc lex.reverse n = some d)) :
    lookupAssoc lex.forward d.KeyString = some d ∧
    lookupAssoc lex.reverse d.HumanName = some d := by
  obtain ⟨hf, hr⟩ := registerStep_foldl_shape lines newLexicon lex hreg
  rw [newLexicon] at hf hr
  simp only [List.append_nil] at hf hr
  have hknd : ((defsOf lines).reverse.map MessageDef.KeyString).Nodup := by
    rw [List.map_reverse]; exact List.nodup_reverse.mpr hkeys
  have hnnd : ((defsOf lines).reverse.map MessageDef.HumanName).Nodup := by
    rw [List.map_reverse]; exact List.nodup_reverse.mpr hnames
  have hmem : d ∈ (defsOf lines).reverse := by
    rcases hreach with ⟨k, hk⟩ | ⟨n, hn⟩
    · rw [hf] at hk; exact (lookupAssoc_map_mem hk).1
    · rw [hr] at hn; exact (lookupAssoc_map_mem hn).1
  constructor
  · rw [hf]; exact lookupAssoc_map_self hknd hmem
  · rw [hr]; exact lookupAssoc_map_self hnnd hmem

/-- Witness for C2 at the two fresh registrations `Li1(S)=A`, `Lh2(D)=B`. -/
theorem c2_invariant_witness :
    lookupAssoc
      (lexicon.mk
        [(s "Qh2", ⟨MsgTypeH, MsgModeDelta, 2, s "B"⟩), (s "Qi1", cexDefA)]
        [(s "B", ⟨MsgTypeH, MsgModeDelta, 2, s "B"⟩),
          (s "A", cexDefA)]).forward cexDefA.KeyString = some cexDefA ∧
    lookupAssoc
      (lexicon.mk
        [(s "Qh2", ⟨MsgTypeH, MsgModeDelta, 2, s "B"⟩), (s "Qi1", cexDefA)]
        [(s "B", ⟨MsgTypeH, MsgModeDelta, 2, s "B"⟩),
          (s "A", cexDefA)]).reverse cexDefA.HumanName = some cexDefA :=
  c2_invariant_amended [s "Li1(S)=A", s "Lh2(D)=B"] _ (by decide) (by decide)
    (by decide) cexDefA (Or.inl ⟨s "Qi1", by decide⟩)

/-! ## Claim C3: which definition lines are rejected -/

/-- Counterexample to C3 as stated: `Li-5(S)=Neg` has an index text `-5`
that is not a non-negative decimal integer, so the claim requires a
SyntaxError and no registration; but Go `strconv.Atoi` accepts a signed
integer, so the line parses and registers (as wire id `Qi-5`). -/
theorem c3_syntax_counterexample :
    parseLexicon (parseMsg none (s "Li-5(S)=Neg")) =
      LexParseRes.ok ⟨MsgTypeI, MsgModeStart, -5, s "Neg"⟩ ∧
    lexicon.parse newLexicon (parseMsg none (s "Li-5(S)=Neg")) =
      some (lexicon.mk
        [(s "Qi-5", ⟨MsgTypeI, MsgModeStart, -5, s "Neg"⟩)]
        [(s "Neg", ⟨MsgTypeI, MsgModeStart, -5, s "Neg"⟩)]) := by decide

/-- Claim C3 (amended): registration returns an error — and leaves both
indices unchanged — exactly when the key is nonempty and: it does not
start with `L`, or is shorter than 6 characters, or the kind letter is not
one of i/s/h, or no `(` is present, or the text between the kind letter
and the first `(` fails Go integer parsing (empty, a non-digit after the
optional sign, or out of the signed 64-bit range — so signed indices such
as `-5` are accepted), or the first `(` is not the final character and the
character after it is not one of the 15 mode letters.  Excluded from the
error outcome are the two panics: an empty key, and a key whose first `(`
is its final character with every earlier check passing. -/
theorem c3_syntax_amended (lex : lexicon) (m : WireMsg) :
    (parseLexicon m = LexParseRes.err ↔
      (m.key ≠ [] ∧
        (¬ m.key.head? = some 'L' ∨
         m.key.length < 6 ∨
         kindOfChar (m.key.getD 1 ' ') = none ∨
         strIndexOf '(' m.key = none ∨
         (∃ j, strIndexOf '(' m.key = some j ∧
           ∀ v : Int,
             ¬ goAtoi ((m.key.drop 2).take (j - 2)) = AtoiRes.ok v) ∨
         (∃ j c, strIndexOf '(' m.key = some j ∧
           m.key.get? (j + 1) = some c ∧ modeOfChar c = none)))) ∧
    (parseLexicon m = LexParseRes.err → lex.parse m = some lex) := by
  constructor
  · rw [parseLexicon.eq_def]
    split
    next hh =>
      have hk : m.key = [] := List.head?_eq_none_iff.mp hh
      exact iff_of_false (by decide) (fun hc => hc.1 hk)
    next c0 hh =>
      have hne : m.key ≠ [] := by
        intro hn; rw [hn] at hh; exact absurd hh (by simp)
      split
      next h =>
        refine iff_of_true rfl ⟨hne, Or.inl ?_⟩
        rw [hh]
        intro habs
        exact h (Option.some.inj habs)
      next h =>
        have hc0 : c0 = 'L' := not_not.mp h
        split
        next hlen => exact iff_of_true rfl ⟨hne, Or.inr (Or.inl hlen)⟩
        next hlen =>
          split
          next hty =>
            exact iff_of_true rfl ⟨hne, Or.inr (Or.inr (Or.inl hty))⟩
          next ty hty =>
            split
            next hidx =>
              exact iff_of_true rfl
                ⟨hne, Or.inr (Or.inr (Or.inr (Or.inl hidx)))⟩
            next j hidx =>
              split
              next idxVal hatoi =>
                split
                next hget =>
                  refine iff_of_false (by decide) ?_
                  rintro ⟨-, h1 | h2 | h3 | h4 | ⟨j2, hj2, hall⟩ |
                    ⟨j2, c2, hj2, hgetc, -⟩⟩
                  · exact h1 (hc0 ▸ hh)
                  · exact hlen h2
                  · rw [hty] at h3; exact absurd h3 (by simp)
                  · rw [hidx] at h4; exact absurd h4 (by simp)
                  · rw [hidx] at hj2
                    obtain rfl := Option.some.inj hj2
                    exact hall idxVal hatoi
                  · rw [hidx] at hj2
                    obtain rfl := Option.some.inj hj2
                    rw [hget] at hgetc
                    exact absurd hgetc (by simp)
                next mc hget =>
                  split
                  next hmode =>
                    exact iff_of_true rfl
                      ⟨hne, Or.inr (Or.inr (Or.inr (Or.inr (Or.inr
                        ⟨j, mc, hidx, hget, hmode⟩))))⟩
                  next md hmode =>
                    refine iff_of_false (by simp) ?_
                    rintro ⟨-, h1 | h2 | h3 | h4 | ⟨j2, hj2, hall⟩ |
                      ⟨j2, c2, hj2, hgetc, hmodec⟩⟩
                    · exact h1 (hc0 ▸ hh)
                    · exact hlen h2
                    · rw [hty] at h3; exact absurd h3 (by simp)
                    · rw [hidx] at h4; exact absurd h4 (by simp)
                    · rw [hidx] at hj2
                      obtain rfl := Option.some.inj hj2
                      exact hall idxVal hatoi
                    · rw [hidx] at hj2
                      obtain rfl := Option.some.inj hj2
                      rw [hget] at hgetc
                      obtain rfl := Option.some.inj hgetc
                      rw [hmode] at hmodec
                      exact absurd hmodec (by simp)
              next hatoi =>
                refine iff_of_true rfl
                  ⟨hne, Or.inr (Or.inr (Or.inr (Or.inr (Or.inl
                    ⟨j, hidx, ?_⟩))))⟩
                intro v habs
                exact hatoi v habs
  · intro herr
    simp only [lexicon.parse, herr]

/-- Witness for C3 at the concrete line `Xi1(S)=A` (key does not start
with `L`): the characterization and the unchanged-lexicon guarantee hold
there. -/
theorem c3_syntax_witness :
    (parseLexicon (parseMsg none (s "Xi1(S)=A")) = LexParseRes.err ↔
      ((parseMsg none (s "Xi1(S)=A")).key ≠ [] ∧
        (¬ (parseMsg none (s "Xi1(S)=A")).key.head? = some 'L' ∨
         (parseMsg none (s "Xi1(S)=A")).key.length < 6 ∨
         kindOfChar ((parseMsg none (s "Xi1(S)=A")).key.getD 1 ' ') = none ∨
         strIndexOf '(' (parseMsg none (s "Xi1(S)=A")).key = none ∨
         (∃ j, strIndexOf '(' (parseMsg none (s "Xi1(S)=A")).key = some j ∧
           ∀ v : Int,
             ¬ goAtoi (((parseMsg none (s "Xi1(S)=A")).key.drop 2).take
               (j - 2)) = AtoiRes.ok v) ∨
         (∃ j c,
           strIndexOf '(' (parseMsg none (s "Xi1(S)=A")).key = some j ∧
           (parseMsg none (s "Xi1(S)=A")).key.get? (j + 1) = some c ∧
           modeOfChar c = none)))) ∧
    (parseLexicon (parseMsg none (s "Xi1(S)=A")) = LexParseRes.err →
      lexicon.parse newLexicon (parseMsg none (s "Xi1(S)=A")) =
        some newLexicon) :=
  c3_syntax_amended newLexicon (parseMsg none (s "Xi1(S)=A"))

/-! ## Claim C4: well-formed definition lines round-trip -/

/-- A well-formed definition line `L<kind><idx>(<mode>)=<name>` with the
index printed in decimal. -/
def mkLexLine (kc : Char) (idx : Nat) (mc : Char) (name : List Char) :
    List Char :=
  'L' :: kc :: (natChars idx ++ '(' :: mc :: ')' :: '=' :: name)

lemma kindOfChar_elem_ne {kc : Char} {tk : Nat}
    (h : kindOfChar kc = some tk) {c : Char} (hc : kindOfChar c = none) :
    kc ≠ c := by
  intro he
  rw [he, hc] at h
  exact absurd h (by simp)

lemma modeOfChar_elem_ne {mc : Char} {tm : Nat}
    (h : modeOfChar mc = some tm) {c : Char} (hc : modeOfChar c = none) :
    mc ≠ c := by
  intro he
  rw [he, hc] at h
  exact absurd h (by simp)

lemma kindOfChar_inv {kc : Char} {tk : Nat} (h : kindOfChar kc = some tk) :
    (kc = 'i' ∧ tk = MsgTypeI) ∨ (kc = 's' ∧ tk = MsgTypeS) ∨
      (kc = 'h' ∧ tk = MsgTypeH) := by
  rw [kindOfChar] at h
  split_ifs at h with h1 h2 h3
  · exact Or.inl ⟨h1, (Option.some.inj h).symm⟩
  · exact Or.inr (Or.inl ⟨h2, (Option.some.inj h).symm⟩)
  · exact Or.inr (Or.inr ⟨h3, (Option.some.inj h).symm⟩)

lemma intChars_ofNat (n : Nat) : intChars (n : Int) = natChars n := by
  rw [intChars, if_neg (by omega), Int.toNat_ofNat]

lemma natChars_not_mem {n : Nat} {c : Char} (hc : c.isDigit = false) :
    c ∉ natChars n := by
  intro hmem
  rw [natChars_isDigit c hmem] at hc
  exact Bool.false_ne_true hc.symm

lemma get?_append_self (xs ys : List Char) :
    (xs ++ ys).get? xs.length = ys.get? 0 := by
  induction xs with
  | nil => rfl
  | cons x t ih => simpa using ih

/-- Counterexample to C4 as stated: the line
`Li9223372036854775808(S)=X` is well-formed per the claim (kind `i`, a
decimal non-negative index, mode `S`), yet its index exceeds the signed
64-bit range, Go `Atoi` reports a range error, and registration fails and
changes nothing. -/
theorem c4_roundtrip_counterexample :
    parseLexicon (parseMsg none (s "Li9223372036854775808(S)=X")) =
      LexParseRes.err ∧
    lexicon.parse newLexicon
        (parseMsg none (s "Li9223372036854775808(S)=X")) =
      some newLexicon := by decide

/-- Claim C4 (amended): for every well-formed definition line
`L<kindLetter><index>(<modeLetter>)=<humanName>` with kind letter in
{i,s,h}, a decimal non-negative index that fits in a signed 64-bit
integer, and a recognized mode letter, registration succeeds with a
definition carrying exactly that kind, mode, index and human name, the
definition's derived wire identifier is `Q` + kindLetter + index, and both
lexicon indices receive the definition.  (Indices ≥ 2^63 are excluded: Go
`Atoi` rejects them — see the counterexample.) -/
theorem c4_roundtrip_amended (kc mc : Char) (idx : Nat) (name : List Char)
    (tk tm : Nat) (lex : lexicon)
    (hk : kindOfChar kc = some tk) (hm : modeOfChar mc = some tm)
    (hidx : (idx : Int) ≤ int64Max) :
    parseLexicon (parseMsg none (mkLexLine kc idx mc name)) =
      LexParseRes.ok ⟨tk, tm, (idx : Int), name⟩ ∧
    MessageDef.KeyString ⟨tk, tm, (idx : Int), name⟩ =
      'Q' :: kc :: natChars idx ∧
    lexicon.parse lex (parseMsg none (mkLexLine kc idx mc name)) =
      some (lexicon.mk
        (('Q' :: kc :: natChars idx, ⟨tk, tm, (idx : Int), name⟩)
          :: lex.forward)
        ((name, (⟨tk, tm, (idx : Int), name⟩ : MessageDef))
          :: lex.reverse)) := by
  have hpos : 0 < (natChars idx).length :=
    List.length_pos.mpr (natChars_ne_nil idx)
  have hkeyP : mkLexLine kc idx mc name =
      ('L' :: kc :: (natChars idx ++ '(' :: mc :: [')'])) ++ '=' :: name := by
    rw [mkLexLine]
    simp
  have hnotmem : '=' ∉ ('L' :: kc :: (natChars idx ++ '(' :: mc :: [')'])) := by
    intro hmem
    rcases List.mem_cons.mp hmem with h1 | hmem2
    · exact absurd h1 (by decide)
    rcases List.mem_cons.mp hmem2 with h2 | hmem3
    · exact (kindOfChar_elem_ne hk
        (by decide : kindOfChar '=' = none)) h2.symm
    rcases List.mem_append.mp hmem3 with h3 | hmem4
    · exact natChars_not_mem (by decide) h3
    rcases List.mem_cons.mp hmem4 with h4 | hmem5
    · exact absurd h4 (by decide)
    rcases List.mem_cons.mp hmem5 with h5 | hmem6
    · exact (modeOfChar_elem_ne hm
        (by decide : modeOfChar '=' = none)) h5.symm
    · exact absurd (List.mem_singleton.mp hmem6) (by decide)
  have hsplit : splitFirst '=' (mkLexLine kc idx mc name) =
      some ('L' :: kc :: (natChars idx ++ '(' :: mc :: [')']), name) := by
    rw [hkeyP]
    exact splitFirst_append hnotmem
  have hmk : (parseMsg none (mkLexLine kc idx mc name)).key =
      'L' :: kc :: (natChars idx ++ '(' :: mc :: [')']) := by
    rw [parseMsg_key, hsplit]
  have hmv : (parseMsg none (mkLexLine kc idx mc name)).Value = name := by
    rw [parseMsg_value, hsplit]
  have hidxof : strIndexOf '('
      ('L' :: kc :: (natChars idx ++ '(' :: mc :: [')'])) =
      some ((natChars idx).length + 2) := by
    have harr : 'L' :: kc :: (natChars idx ++ '(' :: mc :: [')']) =
        ('L' :: kc :: natChars idx) ++ '(' :: mc :: [')'] := by simp
    rw [harr, strIndexOf_append]
    · simp
    · intro x hx
      rcases List.mem_cons.mp hx with rfl | hx2
      · decide
      rcases List.mem_cons.mp hx2 with rfl | hx3
      · exact (kindOfChar_elem_ne hk (by decide : kindOfChar '(' = none))
      · intro he
        exact natChars_not_mem (by decide : ('(' : Char).isDigit = false)
          (he ▸ hx3)
  have hgetp : ('L' :: kc :: (natChars idx ++ '(' :: mc :: [')'])).get?
      ((natChars idx).length + 2 + 1) = some mc := by
    have harr2 : 'L' :: kc :: (natChars idx ++ '(' :: mc :: [')']) =
        (('L' :: kc :: natChars idx) ++ ['(']) ++ mc :: [')'] := by simp
    have hlen2 : (('L' :: kc :: natChars idx) ++ ['(']).length =
        (natChars idx).length + 2 + 1 := by simp
    rw [harr2, ← hlen2, get?_append_self]
    rfl
  have hparse : parseLexicon (parseMsg none (mkLexLine kc idx mc name)) =
      LexParseRes.ok ⟨tk, tm, (idx : Int), name⟩ := by
    rw [parseLexicon.eq_def, hmk, hmv]
    simp only [List.head?_cons]
    rw [if_neg (by simp)]
    rw [if_neg (by simp only [List.length_cons, List.length_append]; omega)]
    simp only [List.getD_cons_succ, List.getD_cons_zero]
    rw [hk]
    rw [hidxof]
    simp only [List.drop_succ_cons, List.drop_zero, Nat.add_sub_cancel,
      List.take_left]
    rw [goAtoi_natChars hidx]
    rw [hgetp]
    simp only [hm]
  have hkeystr : MessageDef.KeyString ⟨tk, tm, (idx : Int), name⟩ =
      'Q' :: kc :: natChars idx := by
    rcases kindOfChar_inv hk with ⟨rfl, rfl⟩ | ⟨rfl, rfl⟩ | ⟨rfl, rfl⟩
    · rw [MessageDef.KeyString, if_pos rfl, intChars_ofNat]
    · rw [MessageDef.KeyString,
        if_neg (show ¬(MsgTypeS = MsgTypeI) by decide), if_pos rfl,
        intChars_ofNat]
    · rw [MessageDef.KeyString,
        if_neg (show ¬(MsgTypeH = MsgTypeI) by decide),
        if_neg (show ¬(MsgTypeH = MsgTypeS) by decide),
        if_pos rfl, intChars_ofNat]
  refine ⟨hparse, hkeystr, ?_⟩
  simp only [lexicon.parse, hparse, hkeystr]

/-- Witness for C4: `Lh402(K)=KeybCduC` yields kind Human, index 402, mode
Cdukeyb, human name `KeybCduC`, and derived wire id `Qh402`. -/
theorem c4_roundtrip_witness :
    mkLexLine 'h' 402 'K' (s "KeybCduC") = s "Lh402(K)=KeybCduC" ∧
    parseLexicon (parseMsg none (mkLexLine 'h' 402 'K' (s "KeybCduC"))) =
      LexParseRes.ok ⟨MsgTypeH, MsgModeCdukeyb, (402 : Int), s "KeybCduC"⟩ ∧
    MessageDef.KeyString
        ⟨MsgTypeH, MsgModeCdukeyb, (402 : Int), s "KeybCduC"⟩ =
      'Q' :: 'h' :: natChars 402 ∧
    'Q' :: 'h' :: natChars 402 = s "Qh402" :=
  ⟨by decide,
   (c4_roundtrip_amended 'h' 'K' 402 (s "KeybCduC") MsgTypeH MsgModeCdukeyb
     newLexicon (by decide) (by decide) (by decide)).1,
   (c4_roundtrip_amended 'h' 'K' 402 (s "KeybCduC") MsgTypeH MsgModeCdukeyb
     newLexicon (by decide) (by decide) (by decide)).2.1,
   by decide⟩
